import Mathlib

/-
Verification of the SilenCut silence-detection core (cut_silence.py).

The detection pipeline is embedded shallowly:
  * `Config` mirrors the parameter set of `SilenceDetector.__init__`;
  * `hystGo` / `detect_mask` mirror the hysteresis loop of `detect_activity`;
  * `squash_short_runs` mirrors `SilenceDetector._squash_short_runs`;
  * `apply_morphology` mirrors `SilenceDetector.apply_morphology`;
  * `maskIntervalsGo` / `mask_to_intervals` mirror `SilenceDetector.mask_to_intervals`.
Python floats are modelled as rationals, numpy boolean arrays as `List Bool`.
-/

namespace Silencut

/-- The parameter set of `SilenceDetector.__init__` (all Python floats, modelled as `ℚ`). -/
structure Config where
  threshold_db : ℚ
  min_silence_ms : ℚ
  min_noise_ms : ℚ
  hysteresis_db : ℚ
  margin_ms : ℚ
  window_ms : ℚ
  hop_ms : ℚ

/-- The default parameters of `SilenceDetector.__init__`. -/
def defaultConfig : Config :=
  { threshold_db := -40, min_silence_ms := 270, min_noise_ms := 70,
    hysteresis_db := 3, margin_ms := 20, window_ms := 20, hop_ms := 10 }

/-- `self.enter_silence_db = threshold_db - hysteresis_db` (line 38). -/
def Config.enter_silence_db (c : Config) : ℚ := c.threshold_db - c.hysteresis_db

/-- `self.exit_silence_db = threshold_db + hysteresis_db` (line 39). -/
def Config.exit_silence_db (c : Config) : ℚ := c.threshold_db + c.hysteresis_db

/-- The hysteresis loop of `detect_activity` (lines 64-72): state `inSilence`
starts `true`; a frame louder than `exit_silence_db` leaves silence, a frame
quieter than `enter_silence_db` re-enters it; the emitted mask value is
`not in_silence` after processing the frame. -/
def hystGo (c : Config) : Bool → List ℚ → List Bool
  | _, [] => []
  | inSilence, d :: rest =>
    let inSilence' :=
      if inSilence ∧ c.exit_silence_db < d then false
      else if (¬ inSilence) ∧ d < c.enter_silence_db then true
      else inSilence
    (! inSilence') :: hystGo c inSilence' rest

/-- The activity mask computed by `detect_activity` from the per-frame dB
series (`in_silence = True` initially). -/
def detect_mask (c : Config) (db : List ℚ) : List Bool := hystGo c true db

/-- Python's `int()` applied to a float: truncation toward zero.  Used for
`win = int(self.window_ms * sr / 1000)` and `hop = int(self.hop_ms * sr / 1000)`
in `detect_activity` (lines 56-57). -/
def truncQ (q : ℚ) : ℤ := if 0 ≤ q then ⌊q⌋ else ⌈q⌉

/-- `win = int(self.window_ms * sr / 1000)` (line 56). -/
def winSamples (c : Config) (sr : ℕ) : ℤ := truncQ (c.window_ms * sr / 1000)

/-- `hop = int(self.hop_ms * sr / 1000)` (line 57). -/
def hopSamples (c : Config) (sr : ℕ) : ℤ := truncQ (c.hop_ms * sr / 1000)

/-- `min_noise_frames = int(np.ceil(self.min_noise_ms / 1000 / hop_duration))`
(line 78). -/
def min_noise_frames (c : Config) (hd : ℚ) : ℤ := ⌈c.min_noise_ms / 1000 / hd⌉

/-- `min_silence_frames = int(np.ceil(self.min_silence_ms / 1000 / hop_duration))`
(line 79). -/
def min_silence_frames (c : Config) (hd : ℚ) : ℤ := ⌈c.min_silence_ms / 1000 / hd⌉

/-- `SilenceDetector._squash_short_runs` (lines 89-106): scan left to right;
at a position holding `v`, take the whole maximal run of `v` starting there
(`j` advances while `m[j] == value`); if its length `run_length` satisfies
`0 < run_length < min_len` flip the run entirely to `!v`; then continue after
the run.  At a position not holding `v` just advance one step (`i = i + 1`).
The Python `min_len` is a machine integer that can be zero or negative, hence
`k : ℤ`. -/
def squash_short_runs (k : ℤ) (v : Bool) : List Bool → List Bool
  | [] => []
  | x :: xs =>
    if x = v then
      (if ((xs.takeWhile (· == v)).length + 1 : ℤ) < k then
        List.replicate ((xs.takeWhile (· == v)).length + 1) (!v)
      else x :: xs.takeWhile (· == v)) ++
        squash_short_runs k v (xs.dropWhile (· == v))
    else
      x :: squash_short_runs k v xs
termination_by l => l.length
decreasing_by
  · simpa using Nat.lt_succ_of_le (List.dropWhile_sublist _).length_le
  · simp

/-- `SilenceDetector.apply_morphology` (lines 76-87): first squash the short
`True` runs with `min_noise_frames`, then squash the short `False` runs of the
result with `min_silence_frames`. -/
def apply_morphology (c : Config) (mask : List Bool) (hd : ℚ) : List Bool :=
  squash_short_runs (min_silence_frames c hd) false
    (squash_short_runs (min_noise_frames c hd) true mask)

/-- `start = max(0.0, times[i] - self.margin_ms / 1000)` (line 122), where
`times[i] = i * hop_duration`. -/
def intervalStart (margin hd : ℚ) (i : ℕ) : ℚ := max 0 ((i : ℚ) * hd - margin)

/-- `end = min(times[j-1] + hop_duration + self.margin_ms / 1000, total_duration)`
(line 123), where `j - 1` is the index of the last frame of the run. -/
def intervalStop (margin hd total : ℚ) (j : ℕ) : ℚ :=
  min ((j : ℚ) * hd + hd + margin) total

/-- `SilenceDetector.mask_to_intervals` loop (lines 116-129), carrying the
current frame index `i`.  At a `True` frame the maximal `True` run starting
there spans frame indices `i .. i + len` where `len` is the number of further
`True` frames; the candidate interval is `(intervalStart i, intervalStop
(i+len))`, kept only `if end > start`; scanning resumes after the run.  At a
`False` frame the index just advances. -/
def maskIntervalsGo (margin hd total : ℚ) : List Bool → ℕ → List (ℚ × ℚ)
  | [], _ => []
  | x :: xs, i =>
    if x = true then
      (if intervalStart margin hd i <
          intervalStop margin hd total (i + (xs.takeWhile (· == true)).length) then
        [(intervalStart margin hd i,
          intervalStop margin hd total (i + (xs.takeWhile (· == true)).length))]
      else []) ++
        maskIntervalsGo margin hd total (xs.dropWhile (· == true))
          (i + (xs.takeWhile (· == true)).length + 1)
    else
      maskIntervalsGo margin hd total xs (i + 1)
termination_by l => l.length
decreasing_by
  · simpa using Nat.lt_succ_of_le (List.dropWhile_sublist _).length_le
  · simp

/-- `SilenceDetector.mask_to_intervals` (lines 108-131): `margin_ms / 1000`
seconds of margin around every kept run. -/
def mask_to_intervals (c : Config) (mask : List Bool) (hd total : ℚ) :
    List (ℚ × ℚ) :=
  maskIntervalsGo (c.margin_ms / 1000) hd total mask 0

/-! ### Run-length decomposition of a mask

`chunks` computes the maximal-run decomposition (run-length encoding) of a
boolean mask; `flat` is its inverse.  These are the reference notions used to
state the spec's "squash" semantics and the run-length invariants. -/

/-- Prepend the run `p` to a run list, merging with the first run when the
values agree. -/
def merge1 (p : Bool × ℕ) : List (Bool × ℕ) → List (Bool × ℕ)
  | [] => [p]
  | q :: r' => if q.1 = p.1 then (p.1, p.2 + q.2) :: r' else p :: q :: r'

/-- The maximal-run decomposition of a mask: `chunks m` lists the maximal
same-value runs of `m` in order, as (value, length) pairs. -/
def chunks : List Bool → List (Bool × ℕ)
  | [] => []
  | x :: xs => merge1 (x, 1) (chunks xs)

/-- Concatenate a run list back into a mask. -/
def flat : List (Bool × ℕ) → List Bool
  | [] => []
  | p :: rs => List.replicate p.2 p.1 ++ flat rs

/-- Normalise a run list: drop empty runs and merge adjacent equal-valued
runs.  `chunks (flat rs) = norm rs`. -/
def norm : List (Bool × ℕ) → List (Bool × ℕ)
  | [] => []
  | p :: rs => if p.2 = 0 then norm rs else merge1 p (norm rs)

/-- The spec's squash rule on a single maximal run: a run of value `v` of
length `L` with `0 < L < min_len` is flipped entirely to `!v`; all other runs
are untouched (the length is never changed). -/
def flipRun (k : ℤ) (v : Bool) (p : Bool × ℕ) : Bool × ℕ :=
  if p.1 = v ∧ (p.2 : ℤ) < k then (!v, p.2) else p

/-- The spec's "squash" semantics, stated on the maximal-run decomposition:
identify the maximal same-value runs, flip the short runs of value `v`, and
concatenate back. -/
def squashSpec (k : ℤ) (v : Bool) (m : List Bool) : List Bool :=
  flat ((chunks m).map (flipRun k v))

/-- The spec's two gate states. -/
inductive GateState where
  | Silence : GateState
  | Active : GateState
deriving DecidableEq

/-- The spec's transition rule: in Silence, move to Active exactly when the
frame's dB exceeds `exitDb`; in Active, move to Silence exactly when it drops
below `enterDb`. -/
def gateStep (enterDb exitDb : ℚ) (s : GateState) (d : ℚ) : GateState :=
  match s with
  | GateState.Silence => if exitDb < d then GateState.Active else GateState.Silence
  | GateState.Active => if d < enterDb then GateState.Silence else GateState.Active

/-- The spec's machine mask: run `gateStep` over the frames and emit `true`
for a frame iff the state after processing it is Active. -/
def machineMask (enterDb exitDb : ℚ) : GateState → List ℚ → List Bool
  | _, [] => []
  | s, d :: rest =>
    decide (gateStep enterDb exitDb s d = GateState.Active) ::
      machineMask enterDb exitDb (gateStep enterDb exitDb s d) rest

/-- One exported line `f"{start:.3f},{end:.3f}"` of `main` (line 325),
represented by the pair of signed thousandth counts printed on it (the decimal
string rendering of an integer is injective, so the two integers carry exactly
the information of the line). `%.3f` rounds its argument to the nearest
thousandth. -/
def exportLine (p : ℚ × ℚ) : ℤ × ℤ := (round (p.1 * 1000), round (p.2 * 1000))

/-- The `--export-intervals` writer of `main` (lines 322-326): one line per
interval, in order, no header. -/
def exportIntervals (l : List (ℚ × ℚ)) : List (ℤ × ℤ) := l.map exportLine

/-- Modelled from the spec: the repository contains no re-parser for the
exported interval file, so the parser is modelled from the interchange-format
description (one line per interval, `start,end` with three decimal places, in
seconds): a line whose thousandth counts are `(a, b)` denotes the pair
`(a / 1000, b / 1000)` of seconds. -/
def parseLine (q : ℤ × ℤ) : ℚ × ℚ := ((q.1 : ℚ) / 1000, (q.2 : ℚ) / 1000)

/-- Modelled from the spec: parse the exported lines back into interval
pairs. -/
def parseIntervals (l : List (ℤ × ℤ)) : List (ℚ × ℚ) := l.map parseLine

/-- Agreement of two interval pairs to 3-decimal precision: componentwise
within half a thousandth. -/
def close3 (p q : ℚ × ℚ) : Prop :=
  |p.1 - q.1| ≤ 1 / 2000 ∧ |p.2 - q.2| ≤ 1 / 2000

/-- `_squash_short_runs` as an operation on a store of numpy arrays (the
arrays allocated so far, addressed by index; the caller's `mask` argument is a
reference into the store).  `m = mask.copy()` (line 91) allocates a fresh
array holding a copy of the input's contents; the loop then mutates only that
fresh copy (`m[i:j] = not value`), which is returned.  Net effect: one new
array holding the squashed contents is appended, and the argument array is
untouched. -/
def squashStore (k : ℤ) (v : Bool) (σ : List (List Bool)) (r : ℕ) :
    List (List Bool) × ℕ :=
  (σ ++ [squash_short_runs k v ((σ[r]?).getD [])], σ.length)

/-- `apply_morphology` as a store operation (lines 84-85): two passes, each
allocating a fresh copy; the local name `mask` is rebound to each result and
the final reference is returned. -/
def applyMorphologyStore (c : Config) (σ : List (List Bool)) (r : ℕ) (hd : ℚ) :
    List (List Bool) × ℕ :=
  let s1 := squashStore (min_noise_frames c hd) true σ r
  squashStore (min_silence_frames c hd) false s1.1 s1.2

/-- A configuration whose margin (10 seconds) dwarfs the hop, with morphology
minimums of 1 ms so that the example mask is its own cleaned form. -/
def cfgWide : Config :=
  { defaultConfig with margin_ms := 10000, min_silence_ms := 1, min_noise_ms := 1 }

/-- A configuration with a fractional window length product: `window_ms = 2.6`
at a 1000 Hz sample rate makes `window_ms * sr / 1000 = 2.6`. -/
def cfgTrunc : Config := { defaultConfig with window_ms := 13 / 5 }

/-- An invalid configuration in the sense of the spec's §7: negative minimum
durations make both computed minimum run lengths non-positive. -/
def cfgInvalid : Config :=
  { defaultConfig with min_noise_ms := -70, min_silence_ms := -270 }

/-- A configuration whose cleaning visibly changes the example mask `[true]`
(noise minimum 2 frames at hop 1 s). -/
def cfgFlip : Config :=
  { defaultConfig with min_noise_ms := 2000, min_silence_ms := 1000 }

/-- A configuration with a 2-frame silence minimum at hop 1 s. -/
def cfgGap : Config :=
  { defaultConfig with min_noise_ms := 1000, min_silence_ms := 2000 }

theorem flat_merge1 (p : Bool × ℕ) (r : List (Bool × ℕ)) :
    flat (merge1 p r) = List.replicate p.2 p.1 ++ flat r := by
  cases r with
  | nil => simp [merge1, flat]
  | cons q r' =>
    by_cases h : q.1 = p.1
    · rw [merge1, if_pos h]
      simp only [flat]
      rw [List.replicate_add, List.append_assoc, h]
    · rw [merge1, if_neg h]
      simp only [flat]

theorem flat_chunks (m : List Bool) : flat (chunks m) = m := by
  induction m with
  | nil => rfl
  | cons x xs ih => simp [chunks, flat_merge1, ih]

theorem chunks_cons_head (x : Bool) (xs : List Bool) :
    ∃ K t, chunks (x :: xs) = (x, K) :: t ∧ 0 < K := by
  show ∃ K t, merge1 (x, 1) (chunks xs) = (x, K) :: t ∧ 0 < K
  cases h : chunks xs with
  | nil => exact ⟨1, [], by simp [merge1], one_pos⟩
  | cons q r' =>
    by_cases hq : q.1 = x
    · exact ⟨1 + q.2, r', by simp [merge1, hq], by omega⟩
    · exact ⟨1, q :: r', by simp [merge1, hq], one_pos⟩

theorem chunks_pos (m : List Bool) : ∀ p ∈ chunks m, 0 < p.2 := by
  induction m with
  | nil => simp [chunks]
  | cons x xs ih =>
    show ∀ p ∈ merge1 (x, 1) (chunks xs), 0 < p.2
    cases h : chunks xs with
    | nil => simp [merge1]
    | cons q r' =>
      by_cases hq : q.1 = x
      · intro p hp
        rw [merge1, if_pos hq] at hp
        rcases List.mem_cons.1 hp with h1 | h1
        · subst h1; simp
        · exact ih p (h ▸ List.mem_cons_of_mem q h1)
      · intro p hp
        rw [merge1, if_neg hq] at hp
        rcases List.mem_cons.1 hp with h1 | h1
        · subst h1; simp
        · exact ih p (h ▸ h1)

theorem chunks_alt (m : List Bool) :
    List.Chain' (fun p q => p.1 ≠ q.1) (chunks m) := by
  induction m with
  | nil => simp [chunks]
  | cons x xs ih =>
    show List.Chain' (fun p q => p.1 ≠ q.1) (merge1 (x, 1) (chunks xs))
    cases h : chunks xs with
    | nil => simp [merge1]
    | cons q r' =>
      rw [h] at ih
      by_cases hq : q.1 = x
      · rw [merge1, if_pos hq]
        rw [List.chain'_cons'] at ih ⊢
        exact ⟨fun y hy => by simpa using hq ▸ ih.1 y hy, ih.2⟩
      · rw [merge1, if_neg hq]
        rw [List.chain'_cons]
        exact ⟨by simpa using Ne.symm hq, ih⟩

theorem merge1_merge1 (v : Bool) (L M : ℕ) (r : List (Bool × ℕ)) :
    merge1 (v, L) (merge1 (v, M) r) = merge1 (v, L + M) r := by
  cases r with
  | nil => simp [merge1, Nat.add_assoc]
  | cons q r' =>
    by_cases h : q.1 = v
    · simp [merge1, h, Nat.add_assoc]
    · simp [merge1, h]

theorem chunks_replicate_append (v : Bool) (t : List Bool) :
    ∀ L, 0 < L → chunks (List.replicate L v ++ t) = merge1 (v, L) (chunks t) := by
  intro L
  induction L with
  | zero => omega
  | succ n ih =>
    intro _
    rcases Nat.eq_zero_or_pos n with h0 | hp
    · subst h0
      simp [chunks, List.replicate_succ]
    · rw [List.replicate_succ, List.cons_append, chunks, ih hp, merge1_merge1]
      norm_num [Nat.add_comm]

theorem chunks_flat_norm : ∀ rs, chunks (flat rs) = norm rs := by
  intro rs
  induction rs with
  | nil => rfl
  | cons p rs' ih =>
    by_cases h : p.2 = 0
    · simp [flat, h, norm, ih]
    · have hp : 0 < p.2 := Nat.pos_of_ne_zero h
      rw [flat, norm, if_neg h, chunks_replicate_append _ _ _ hp, ih]

theorem chunks_replicate (v : Bool) (L : ℕ) (h : 0 < L) :
    chunks (List.replicate L v) = [(v, L)] := by
  have h2 := chunks_replicate_append v [] L h
  simpa [chunks, merge1] using h2

/-! ### The iterative squash equals the run-level squash -/

theorem takeWhile_replicate_append (v : Bool) (t : List Bool) :
    ∀ L, (List.replicate L v ++ t).takeWhile (· == v) =
      List.replicate L v ++ t.takeWhile (· == v) := by
  intro L
  induction L with
  | zero => simp
  | succ n ih => simp [List.replicate_succ, List.takeWhile_cons, ih]

theorem dropWhile_replicate_append (v : Bool) (t : List Bool) :
    ∀ L, (List.replicate L v ++ t).dropWhile (· == v) =
      t.dropWhile (· == v) := by
  intro L
  induction L with
  | zero => simp
  | succ n ih => simp [List.replicate_succ, List.dropWhile_cons, ih]

theorem takeWhile_flat_of_head_ne (v : Bool) (rs : List (Bool × ℕ))
    (hpos : ∀ p ∈ rs, 0 < p.2) (hhead : ∀ p ∈ rs.head?, p.1 ≠ v) :
    (flat rs).takeWhile (· == v) = [] ∧ (flat rs).dropWhile (· == v) = flat rs := by
  cases rs with
  | nil => simp [flat]
  | cons p rs' =>
    have hp : 0 < p.2 := hpos p (List.mem_cons_self p rs')
    have hne : p.1 ≠ v := hhead p (by simp)
    obtain ⟨n, hn⟩ : ∃ n, p.2 = n + 1 := ⟨p.2 - 1, by omega⟩
    rw [flat, hn, List.replicate_succ, List.cons_append]
    simp [List.takeWhile_cons, List.dropWhile_cons, hne]

theorem squash_prepend_ne (k : ℤ) (v w : Bool) (hw : w ≠ v) (t : List Bool) :
    ∀ L, squash_short_runs k v (List.replicate L w ++ t) =
      List.replicate L w ++ squash_short_runs k v t := by
  intro L
  induction L with
  | zero => simp
  | succ n ih =>
    rw [List.replicate_succ, List.cons_append, squash_short_runs, if_neg hw, ih]
    simp

theorem squash_flat (k : ℤ) (v : Bool) :
    ∀ rs : List (Bool × ℕ), (∀ p ∈ rs, 0 < p.2) →
    List.Chain' (fun p q => p.1 ≠ q.1) rs →
    squash_short_runs k v (flat rs) = flat (rs.map (flipRun k v)) := by
  intro rs
  induction rs with
  | nil => intro _ _; simp [flat, squash_short_runs]
  | cons p rs' ih =>
    intro hpos hchain
    obtain ⟨w, L⟩ := p
    have hp : 0 < L := by simpa using hpos (w, L) (List.mem_cons_self _ _)
    have hpos' : ∀ q ∈ rs', 0 < q.2 := fun q hq => hpos q (List.mem_cons_of_mem _ hq)
    have hchain' : List.Chain' (fun p q => p.1 ≠ q.1) rs' := hchain.tail
    obtain ⟨n, rfl⟩ : ∃ n, L = n + 1 := ⟨L - 1, by omega⟩
    by_cases hv : w = v
    · -- the first run has value `v`: the scanner grabs it whole
      subst hv
      have hhead : ∀ q ∈ rs'.head?, q.1 ≠ w := by
        intro q hq
        have h2 := (List.chain'_cons'.1 hchain).1 q hq
        simp only at h2
        exact fun hqv => h2 hqv.symm
      obtain ⟨htw, hdw⟩ := takeWhile_flat_of_head_ne w rs' hpos' hhead
      rw [flat, List.replicate_succ, List.cons_append, squash_short_runs,
        if_pos rfl, takeWhile_replicate_append, htw, List.append_nil,
        dropWhile_replicate_append, hdw, ih hpos' hchain', List.map_cons, flat,
        List.length_replicate]
      by_cases hk : ((n : ℤ) + 1) < k
      · have hk' : (((n + 1 : ℕ) : ℤ)) < k := by push_cast; omega
        rw [if_pos hk, flipRun, if_pos ⟨rfl, hk'⟩]
      · have hk' : ¬ ((w, n + 1) : Bool × ℕ).1 = w ∨ ¬ (((n + 1 : ℕ) : ℤ)) < k :=
          Or.inr (by push_cast; omega)
        rw [if_neg hk, flipRun, if_neg (not_and_or.2 hk')]
        simp [List.replicate_succ]
    · -- the first run has a different value: the scanner walks through it
      rw [flat, squash_prepend_ne k v w hv, ih hpos' hchain', List.map_cons, flat,
        flipRun, if_neg (by simp [hv])]

/-- The while-loop of `_squash_short_runs` implements exactly the spec's
run-level squash: flip every maximal run of `value` whose length is positive
and below `min_len`, leave every other run untouched. -/
theorem squash_eq_spec (k : ℤ) (v : Bool) (m : List Bool) :
    squash_short_runs k v m = squashSpec k v m := by
  conv_lhs => rw [← flat_chunks m]
  exact squash_flat k v (chunks m) (chunks_pos m) (chunks_alt m)

/-! ### Run-length lower bounds of squashed masks -/

theorem norm_runs_ge (v : Bool) (k : ℤ) :
    ∀ rs : List (Bool × ℕ), (∀ p ∈ rs, p.1 = v → k ≤ (p.2 : ℤ)) →
      ∀ q ∈ norm rs, q.1 = v → k ≤ (q.2 : ℤ) := by
  intro rs
  induction rs with
  | nil => simp [norm]
  | cons p rs' ih =>
    intro h q hq
    have h' : ∀ r ∈ rs', r.1 = v → k ≤ (r.2 : ℤ) :=
      fun r hr => h r (List.mem_cons_of_mem _ hr)
    rw [norm] at hq
    by_cases h0 : p.2 = 0
    · rw [if_pos h0] at hq
      exact ih h' q hq
    · rw [if_neg h0] at hq
      cases hnorm : norm rs' with
      | nil =>
        rw [hnorm, merge1] at hq
        simp only [List.mem_singleton] at hq
        rw [hq]
        exact h p (List.mem_cons_self _ _)
      | cons r t =>
        rw [hnorm, merge1] at hq
        by_cases hr : r.1 = p.1
        · rw [if_pos hr] at hq
          rcases List.mem_cons.1 hq with h1 | h1
          · subst h1
            intro hqv
            have hk1 := h p (List.mem_cons_self _ _) hqv
            simp only at hk1 ⊢
            push_cast
            omega
          · exact ih h' q (hnorm ▸ List.mem_cons_of_mem r h1)
        · rw [if_neg hr] at hq
          rcases List.mem_cons.1 hq with h1 | h1
          · rw [h1]
            exact h p (List.mem_cons_self _ _)
          · exact ih h' q (hnorm ▸ h1)

theorem map_flip_runs_ge (k : ℤ) (v : Bool) (rs : List (Bool × ℕ)) :
    ∀ q ∈ rs.map (flipRun k v), q.1 = v → k ≤ (q.2 : ℤ) := by
  intro q hq hqv
  obtain ⟨p, hp, rfl⟩ := List.mem_map.1 hq
  by_cases hc : p.1 = v ∧ (p.2 : ℤ) < k
  · rw [flipRun, if_pos hc] at hqv
    exact absurd hqv (by simp)
  · rw [flipRun, if_neg hc] at hqv ⊢
    rcases not_and_or.1 hc with h1 | h1
    · exact absurd hqv h1
    · exact not_lt.1 h1

/-- The run decomposition of a squashed mask is the normalisation of the
flipped run decomposition of the input. -/
theorem chunks_squash (k : ℤ) (v : Bool) (m : List Bool) :
    chunks (squash_short_runs k v m) = norm ((chunks m).map (flipRun k v)) := by
  rw [squash_eq_spec, squashSpec, chunks_flat_norm]

/-- After squashing the short `v`-runs with bound `k`, every maximal `v`-run
of the result has length at least `k`. -/
theorem squash_runs_ge (k : ℤ) (v : Bool) (m : List Bool) :
    ∀ p ∈ chunks (squash_short_runs k v m), p.1 = v → k ≤ (p.2 : ℤ) := by
  rw [chunks_squash]
  exact norm_runs_ge v k _ (map_flip_runs_ge k v (chunks m))

/-- A mask all of whose maximal `v`-runs have length at least `k` is left
unchanged by the squash pass. -/
theorem squash_eq_self (k : ℤ) (v : Bool) (m : List Bool)
    (h : ∀ p ∈ chunks m, p.1 = v → ¬ ((p.2 : ℤ) < k)) :
    squash_short_runs k v m = m := by
  rw [squash_eq_spec, squashSpec]
  have hmap : (chunks m).map (flipRun k v) = chunks m := by
    conv_rhs => rw [← List.map_id (chunks m)]
    apply List.map_congr_left
    intro p hp
    simp only [id_eq]
    unfold flipRun
    exact if_neg fun hc => h p hp hc.1 hc.2
  rw [hmap, flat_chunks]

/-- A squash pass whose threshold is non-positive never flips anything: every
run length is at least `1`. -/
theorem squash_nonpos_eq_self (k : ℤ) (v : Bool) (m : List Bool) (hk : k ≤ 0) :
    squash_short_runs k v m = m := by
  apply squash_eq_self
  intro p hp _
  have := chunks_pos m p hp
  omega

/-! ### Idempotence of the morphology -/

theorem flipRun_ne (k : ℤ) (v w : Bool) (L : ℕ) (h : w ≠ v) :
    flipRun k v (w, L) = (w, L) :=
  if_neg fun hc => h hc.1

theorem flipRun_lt (k : ℤ) (v : Bool) (L : ℕ) (h : (L : ℤ) < k) :
    flipRun k v (v, L) = (!v, L) :=
  if_pos ⟨rfl, h⟩

theorem flipRun_ge (k : ℤ) (v : Bool) (L : ℕ) (h : ¬ (L : ℤ) < k) :
    flipRun k v (v, L) = (v, L) :=
  if_neg fun hc => h hc.2

theorem norm_cons_pos (x : Bool × ℕ) (l : List (Bool × ℕ)) (h : ¬ x.2 = 0) :
    norm (x :: l) = merge1 x (norm l) := by
  rw [norm, if_neg h]

theorem merge1_true_true (L K : ℕ) (T : List (Bool × ℕ)) :
    merge1 (true, L) ((true, K) :: T) = (true, L + K) :: T := by
  rw [merge1, if_pos rfl]

/-- Merging a `true` run of length at least `a` onto a run list whose `true`
runs all have length at least `a` keeps every `true` run at least `a` long. -/
theorem merge_true_ge (a : ℤ) (L : ℕ) (hLa : a ≤ (L : ℤ)) (R : List (Bool × ℕ))
    (hR : ∀ q ∈ R, q.1 = true → a ≤ (q.2 : ℤ)) :
    ∀ q ∈ merge1 (true, L) R, q.1 = true → a ≤ (q.2 : ℤ) := by
  intro q hq
  cases R with
  | nil =>
    rw [merge1] at hq
    simp only [List.mem_singleton] at hq
    rw [hq]
    intro _
    simpa using hLa
  | cons r t =>
    by_cases hr : r.1 = true
    · rw [merge1, if_pos hr] at hq
      rcases List.mem_cons.1 hq with h1 | h1
      · rw [h1]
        intro _
        have := hR r (List.mem_cons_self _ _) hr
        simp only
        push_cast
        omega
      · exact hR q (List.mem_cons_of_mem r h1)
    · rw [merge1, if_neg hr] at hq
      rcases List.mem_cons.1 hq with h1 | h1
      · rw [h1]
        intro _
        simpa using hLa
      · exact hR q h1

/-- Normalising a run list headed by a positive `true` run yields a list
headed by a `true` run at least as long. -/
theorem norm_head_true (M : ℕ) (hM : 0 < M) (l : List (Bool × ℕ)) :
    ∃ K T, norm ((true, M) :: l) = (true, K) :: T ∧ M ≤ K ∧
      ∀ q ∈ T, q ∈ norm l := by
  rw [norm_cons_pos _ _ (by simpa using hM.ne')]
  cases hn : norm l with
  | nil => exact ⟨M, [], by rw [merge1], le_rfl, by simp⟩
  | cons s t' =>
    by_cases hs : s.1 = true
    · exact ⟨M + s.2, t', by rw [merge1, if_pos hs], Nat.le_add_right _ _,
        fun q hq => hn ▸ List.mem_cons_of_mem s hq⟩
    · exact ⟨M, s :: t', by rw [merge1, if_neg hs], le_rfl, fun q hq => hn ▸ hq⟩

/-- After the silence pass (squash `false` runs shorter than `b`) on a mask
whose maximal `true` runs are all at least `a` long, either every maximal
`true` run of the result is still at least `a` long, or the input was a single
`false` run of length `n < b` and the result is the all-`true` run list.
The run list `rs` stands for the maximal-run decomposition of the input. -/
theorem morph_true_runs (a b : ℤ) :
    ∀ rs : List (Bool × ℕ),
      List.Chain' (fun p q => p.1 ≠ q.1) rs →
      (∀ p ∈ rs, 0 < p.2) →
      (∀ p ∈ rs, p.1 = true → a ≤ (p.2 : ℤ)) →
      (∀ q ∈ norm (rs.map (flipRun b false)), q.1 = true → a ≤ (q.2 : ℤ)) ∨
        ∃ n : ℕ, rs = [(false, n)] ∧ (n : ℤ) < b ∧
          norm (rs.map (flipRun b false)) = [(true, n)] := by
  intro rs
  induction rs with
  | nil =>
    intro _ _ _
    left
    simp [norm]
  | cons p rs' ih =>
    intro hchain hpos htrue
    obtain ⟨w, L⟩ := p
    have hL : 0 < L := by simpa using hpos (w, L) (List.mem_cons_self _ _)
    have hL' : ¬ L = 0 := hL.ne'
    cases rs' with
    | nil =>
      cases w with
      | false =>
        by_cases hb : (L : ℤ) < b
        · right
          refine ⟨L, rfl, hb, ?_⟩
          rw [List.map_cons, List.map_nil, flipRun_lt b false L hb,
            norm_cons_pos _ _ (by simpa using hL'), norm, merge1]
          simp
        · left
          rw [List.map_cons, List.map_nil, flipRun_ge b false L hb,
            norm_cons_pos _ _ (by simpa using hL'), norm, merge1]
          intro q hq
          simp only [List.mem_singleton] at hq
          rw [hq]
          simp
      | true =>
        left
        rw [List.map_cons, List.map_nil, flipRun_ne b false true L (by simp),
          norm_cons_pos _ _ (by simpa using hL'), norm, merge1]
        intro q hq _
        simp only [List.mem_singleton] at hq
        rw [hq]
        exact htrue (true, L) (List.mem_cons_self _ _) rfl
    | cons q0 rs'' =>
      obtain ⟨u, M⟩ := q0
      have hM : 0 < M := by simpa using hpos (u, M) (List.mem_cons_of_mem _ (List.mem_cons_self _ _))
      have hwu : w ≠ u := by simpa using (List.chain'_cons.1 hchain).1
      have hchain' : List.Chain' (fun p q => p.1 ≠ q.1) ((u, M) :: rs'') :=
        (List.chain'_cons.1 hchain).2
      have hpos' : ∀ r ∈ (u, M) :: rs'', 0 < r.2 :=
        fun r hr => hpos r (List.mem_cons_of_mem _ hr)
      have htrue' : ∀ r ∈ (u, M) :: rs'', r.1 = true → a ≤ (r.2 : ℤ) :=
        fun r hr => htrue r (List.mem_cons_of_mem _ hr)
      have IH := ih hchain' hpos' htrue'
      cases w with
      | true =>
        -- head run already long; it may absorb a following flipped run
        have hLa : a ≤ (L : ℤ) := htrue (true, L) (List.mem_cons_self _ _) rfl
        rw [List.map_cons, flipRun_ne b false true L (by simp),
          norm_cons_pos _ _ (by simpa using hL')]
        rcases IH with hleft | ⟨n, hsing, hnb, hnorm⟩
        · left
          exact merge_true_ge a L hLa _ hleft
        · left
          rw [hnorm, merge1_true_true]
          intro q hq _
          simp only [List.mem_singleton] at hq
          rw [hq]
          simp only
          push_cast
          omega
      | false =>
        -- the following run is a long true run; IH cannot be the special case
        have hu : u = true := by
          cases u
          · exact absurd rfl hwu
          · rfl
        subst hu
        have hIHleft : ∀ r ∈ norm (((true, M) :: rs'').map (flipRun b false)),
            r.1 = true → a ≤ (r.2 : ℤ) := by
          rcases IH with hleft | ⟨n, hsing, _, _⟩
          · exact hleft
          · exact absurd (congrArg (fun l => (l.headI : Bool × ℕ).1) hsing) (by simp)
        simp only [List.map_cons] at hIHleft ⊢
        rw [flipRun_ne b false true M (by simp)] at hIHleft
        rw [flipRun_ne b false true M (by simp)]
        obtain ⟨K, T, hR, hMK, hT⟩ := norm_head_true M hM (rs''.map (flipRun b false))
        have haK : a ≤ (K : ℤ) := hIHleft (true, K) (hR ▸ List.mem_cons_self _ _) rfl
        by_cases hb : (L : ℤ) < b
        · left
          rw [flipRun_lt b false L hb]
          simp only [Bool.not_false]
          rw [norm_cons_pos _ _ (by simpa using hL'), hR, merge1_true_true]
          intro q hq
          rcases List.mem_cons.1 hq with h1 | h1
          · rw [h1]
            intro _
            simp only
            push_cast
            omega
          · exact hIHleft q (hR ▸ List.mem_cons_of_mem _ h1)
        · left
          rw [flipRun_ge b false L hb,
            norm_cons_pos _ _ (by simpa using hL'), hR, merge1, if_neg (by simp)]
          intro q hq
          rcases List.mem_cons.1 hq with h1 | h1
          · rw [h1]
            intro h2
            exact absurd h2 (by simp)
          · exact hIHleft q (hR ▸ h1)

/-- The squash of a single short run of value `v` flips it whole. -/
theorem squash_replicate_flip (k : ℤ) (v : Bool) (n : ℕ) (hn : 0 < n)
    (hk : (n : ℤ) < k) :
    squash_short_runs k v (List.replicate n v) = List.replicate n (!v) := by
  rw [squash_eq_spec, squashSpec, chunks_replicate v n hn, List.map_cons,
    List.map_nil, flipRun_lt k v n hk, flat, flat, List.append_nil]

/-- Structure of a cleaned mask: after the two passes, either every maximal
`true` run is at least `min_noise_frames` long and every maximal `false` run
is at least `min_silence_frames` long, or the whole mask is one `true` run
shorter than both bounds. -/
theorem morph_invariant (a b : ℤ) (m : List Bool) :
    ((∀ p ∈ chunks (squash_short_runs b false (squash_short_runs a true m)),
        p.1 = true → a ≤ (p.2 : ℤ)) ∧
      (∀ p ∈ chunks (squash_short_runs b false (squash_short_runs a true m)),
        p.1 = false → b ≤ (p.2 : ℤ))) ∨
      ∃ n : ℕ, 0 < n ∧ (n : ℤ) < a ∧ (n : ℤ) < b ∧
        squash_short_runs b false (squash_short_runs a true m) =
          List.replicate n true := by
  have hfalse := squash_runs_ge b false (squash_short_runs a true m)
  have htrueY := squash_runs_ge a true m
  have hstep := morph_true_runs a b (chunks (squash_short_runs a true m))
    (chunks_alt _) (chunks_pos _) htrueY
  have hXchunks := chunks_squash b false (squash_short_runs a true m)
  rcases hstep with hleft | ⟨n, hsing, hnb, _⟩
  · left
    exact ⟨by rw [hXchunks]; exact hleft, hfalse⟩
  · have hn0 : 0 < n := by
      simpa using chunks_pos _ (false, n) (hsing ▸ List.mem_cons_self _ _)
    have hXval : squash_short_runs b false (squash_short_runs a true m) =
        List.replicate n true := by
      conv_lhs => rw [← flat_chunks (squash_short_runs a true m)]
      rw [hsing, flat, flat, List.append_nil,
        squash_replicate_flip b false n hn0 hnb, Bool.not_false]
    by_cases hna : (n : ℤ) < a
    · right
      exact ⟨n, hn0, hna, hnb, hXval⟩
    · left
      refine ⟨?_, hfalse⟩
      rw [hXval, chunks_replicate true n hn0]
      intro p hp _
      simp only [List.mem_singleton] at hp
      rw [hp]
      simpa using not_lt.1 hna

/-- Core idempotence of the two-pass morphology, for arbitrary integer
minimum run lengths. -/
theorem morph_core_idem (a b : ℤ) (m : List Bool) :
    squash_short_runs b false (squash_short_runs a true
      (squash_short_runs b false (squash_short_runs a true m))) =
    squash_short_runs b false (squash_short_runs a true m) := by
  rcases morph_invariant a b m with ⟨htrue, hfalse⟩ | ⟨n, hn0, hna, hnb, hX⟩
  · rw [squash_eq_self a true _ fun p hp h1 => not_lt.2 (htrue p hp h1),
      squash_eq_self b false _ fun p hp h1 => not_lt.2 (hfalse p hp h1)]
  · rw [hX, squash_replicate_flip a true n hn0 hna, Bool.not_true,
      squash_replicate_flip b false n hn0 hnb, Bool.not_false]

/-! ### Interval extraction: bounds and ordering -/

theorem intervalStart_mono (margin hd : ℚ) (hhd : 0 < hd) {i j : ℕ} (h : i ≤ j) :
    intervalStart margin hd i ≤ intervalStart margin hd j := by
  apply max_le_max le_rfl
  have : (i : ℚ) ≤ (j : ℚ) := by exact_mod_cast h
  nlinarith

/-- Every interval produced from index `i` onward starts no earlier than the
candidate start at index `i`. -/
theorem mti_start_lb (margin hd total : ℚ) (hhd : 0 < hd) :
    ∀ (xs : List Bool) (i : ℕ), ∀ p ∈ maskIntervalsGo margin hd total xs i,
      intervalStart margin hd i ≤ p.1 := by
  intro xs i
  induction xs, i using maskIntervalsGo.induct margin hd total with
  | case1 j => simp [maskIntervalsGo]
  | case2 xs i ih =>
    intro p hp
    rw [maskIntervalsGo, if_pos rfl] at hp
    rcases List.mem_append.1 hp with h1 | h1
    · rcases Decidable.em (intervalStart margin hd i <
        intervalStop margin hd total (i + (xs.takeWhile (· == true)).length)) with hc | hc
      · rw [if_pos hc] at h1
        simp only [List.mem_singleton] at h1
        rw [h1]
      · rw [if_neg hc] at h1
        simp at h1
    · exact le_trans
        (intervalStart_mono margin hd hhd (Nat.le_add_right i _ |>.trans (Nat.le_succ _)))
        (ih p h1)
  | case3 x xs i hx ih =>
    intro p hp
    rw [maskIntervalsGo, if_neg hx] at hp
    exact le_trans (intervalStart_mono margin hd hhd (Nat.le_succ i)) (ih p hp)

/-- C5 core: every returned interval lies inside `[0, total]` and is
non-degenerate. -/
theorem mti_mem_bounds (margin hd total : ℚ) :
    ∀ (xs : List Bool) (i : ℕ), ∀ p ∈ maskIntervalsGo margin hd total xs i,
      0 ≤ p.1 ∧ p.2 ≤ total ∧ p.1 < p.2 := by
  intro xs i
  induction xs, i using maskIntervalsGo.induct margin hd total with
  | case1 j => simp [maskIntervalsGo]
  | case2 xs i ih =>
    intro p hp
    rw [maskIntervalsGo, if_pos rfl] at hp
    rcases List.mem_append.1 hp with h1 | h1
    · rcases Decidable.em (intervalStart margin hd i <
        intervalStop margin hd total (i + (xs.takeWhile (· == true)).length)) with hc | hc
      · rw [if_pos hc] at h1
        simp only [List.mem_singleton] at h1
        rw [h1]
        exact ⟨le_max_left _ _, min_le_right _ _, hc⟩
      · rw [if_neg hc] at h1
        simp at h1
    · exact ih p h1
  | case3 x xs i hx ih =>
    intro p hp
    rw [maskIntervalsGo, if_neg hx] at hp
    exact ih p hp

theorem dropWhile_cons_head {α : Type} (p : α → Bool) :
    ∀ (l : List α) (c : α) (t : List α), l.dropWhile p = c :: t → p c = false := by
  intro l
  induction l with
  | nil => intro c t h; simp [List.dropWhile] at h
  | cons x xs ih =>
    intro c t h
    rw [List.dropWhile_cons] at h
    rcases Decidable.em (p x = true) with hx | hx
    · rw [if_pos hx] at h
      exact ih c t h
    · rw [if_neg hx] at h
      cases h
      simpa using hx

/-- C1 core (amended): with the margin at most half a hop, the produced
intervals are sorted by start and consecutive intervals do not overlap. -/
theorem mti_chain (margin hd total : ℚ) (hhd : 0 < hd) (hm : 2 * margin ≤ hd) :
    ∀ (xs : List Bool) (i : ℕ),
      List.Chain' (fun p q => p.1 ≤ q.1 ∧ p.2 ≤ q.1)
        (maskIntervalsGo margin hd total xs i) := by
  intro xs i
  induction xs, i using maskIntervalsGo.induct margin hd total with
  | case1 j => simp [maskIntervalsGo]
  | case2 xs i ih =>
    rw [maskIntervalsGo, if_pos rfl]
    rcases Decidable.em (intervalStart margin hd i <
      intervalStop margin hd total (i + (xs.takeWhile (· == true)).length)) with hc | hc
    · rw [if_pos hc, List.singleton_append, List.chain'_cons']
      refine ⟨?_, ih⟩
      intro y hy
      have hymem : y ∈ maskIntervalsGo margin hd total (xs.dropWhile (· == true))
          (i + (xs.takeWhile (· == true)).length + 1) := List.mem_of_mem_head? hy
      -- the tail of the scan starts at a `False` frame (or is empty)
      have hy1 : intervalStart margin hd (i + (xs.takeWhile (· == true)).length + 1 + 1) ≤ y.1 := by
        cases hdw : xs.dropWhile (· == true) with
        | nil =>
          rw [hdw] at hymem
          simp [maskIntervalsGo] at hymem
        | cons c t =>
          have hc0 : c = false := by
            have := dropWhile_cons_head (· == true) xs c t hdw
            simpa using this
          rw [hdw, hc0] at hymem
          rw [maskIntervalsGo, if_neg (by simp)] at hymem
          exact mti_start_lb margin hd total hhd t
            (i + (xs.takeWhile (· == true)).length + 1 + 1) y hymem
      have hkey : intervalStop margin hd total (i + (xs.takeWhile (· == true)).length) ≤
          intervalStart margin hd (i + (xs.takeWhile (· == true)).length + 1 + 1) := by
        unfold intervalStop intervalStart
        apply le_trans (min_le_left _ _)
        apply le_max_of_le_right
        push_cast
        nlinarith
      exact ⟨le_trans (le_of_lt hc) (le_trans hkey hy1), le_trans hkey hy1⟩
    · rw [if_neg hc, List.nil_append]
      exact ih
  | case3 x xs i hx ih =>
    rw [maskIntervalsGo, if_neg hx]
    exact ih

/-! ### The hysteresis gate as the spec's two-state machine -/

theorem hystGo_machine (c : Config) : ∀ (l : List ℚ) (b : Bool),
    hystGo c b l =
      machineMask c.enter_silence_db c.exit_silence_db
        (if b then GateState.Silence else GateState.Active) l := by
  intro l
  induction l with
  | nil => intro b; cases b <;> simp [hystGo, machineMask]
  | cons d rest ih =>
    intro b
    cases b with
    | true =>
      by_cases hexit : c.exit_silence_db < d
      · simp [hystGo, machineMask, gateStep, hexit, ih false]
      · simp [hystGo, machineMask, gateStep, hexit, ih true]
    | false =>
      by_cases henter : d < c.enter_silence_db
      · simp [hystGo, machineMask, gateStep, henter, ih true]
      · simp [hystGo, machineMask, gateStep, henter, ih false]

/-! ### Remaining helper lemmas -/

theorem morph_eq_spec (c : Config) (hd : ℚ) (m : List Bool) :
    apply_morphology c m hd =
      squashSpec (min_silence_frames c hd) false
        (squashSpec (min_noise_frames c hd) true m) := by
  rw [apply_morphology, squash_eq_spec, squash_eq_spec]

theorem round3_close (x : ℚ) :
    |((round (x * 1000) : ℤ) : ℚ) / 1000 - x| ≤ 1 / 2000 := by
  have h := abs_sub_round (x * 1000)
  have h3 : |((round (x * 1000) : ℤ) : ℚ) - x * 1000| ≤ 1 / 2 := by
    rw [abs_sub_comm]
    exact h
  have h2 : ((round (x * 1000) : ℤ) : ℚ) / 1000 - x
      = (((round (x * 1000) : ℤ) : ℚ) - x * 1000) / 1000 := by ring
  rw [h2, abs_div, abs_of_pos (show (0 : ℚ) < 1000 by norm_num)]
  linarith

theorem exportLine_parseLine (q : ℤ × ℤ) : exportLine (parseLine q) = q := by
  unfold exportLine parseLine
  rw [div_mul_cancel₀ _ (show (1000 : ℚ) ≠ 0 by norm_num),
    div_mul_cancel₀ _ (show (1000 : ℚ) ≠ 0 by norm_num), round_intCast, round_intCast]

/-! ### The claims -/

/-- C1, counterexample: with a 10-second margin and 1-second hop, the mask
`[true, false, true]` (already its own cleaned form for `cfgWide`) yields the
intervals `[(0, 11), (0, 13)]`, and the second interval's start `0` is less
than the first interval's end `11`: the returned sequence is not
non-overlapping as claimed. -/
theorem intervals_overlap_counterexample :
    apply_morphology cfgWide [true, false, true] 1 = [true, false, true] ∧
      mask_to_intervals cfgWide [true, false, true] 1 100 = [(0, 11), (0, 13)] ∧
      ¬ List.Chain' (fun p q : ℚ × ℚ => p.2 ≤ q.1)
        (mask_to_intervals cfgWide [true, false, true] 1 100) := by
  have ha : min_noise_frames cfgWide 1 = 1 := by
    norm_num [min_noise_frames, cfgWide, defaultConfig, Int.ceil_eq_iff]
  have hb : min_silence_frames cfgWide 1 = 1 := by
    norm_num [min_silence_frames, cfgWide, defaultConfig, Int.ceil_eq_iff]
  have hmorph : apply_morphology cfgWide [true, false, true] 1 = [true, false, true] := by
    rw [morph_eq_spec, ha, hb]
    decide
  have hmti : mask_to_intervals cfgWide [true, false, true] 1 100 = [(0, 11), (0, 13)] := by
    rw [mask_to_intervals]
    norm_num [maskIntervalsGo, intervalStart, intervalStop, cfgWide, defaultConfig,
      List.takeWhile_cons, List.dropWhile_cons]
  refine ⟨hmorph, hmti, ?_⟩
  rw [hmti]
  simp only [List.chain'_cons, List.chain'_singleton, and_true]
  norm_num

/-- C1, amended: for every mask, `hop_duration > 0`, `total_duration`, and
`margin_ms` such that two margins fit in one hop
(`2 * margin_ms / 1000 ≤ hop_duration`), the interval sequence returned by
`mask_to_intervals` is sorted by start time and no interval's start is less
than the previous interval's end. -/
theorem intervals_sorted_nonoverlapping (c : Config) (mask : List Bool)
    (hd total : ℚ) (hhd : 0 < hd) (hm : 2 * (c.margin_ms / 1000) ≤ hd) :
    List.Chain' (fun p q => p.1 ≤ q.1 ∧ p.2 ≤ q.1)
      (mask_to_intervals c mask hd total) := by
  rw [mask_to_intervals]
  exact mti_chain _ hd total hhd hm mask 0

/-- C1, witness for the amended theorem at the default configuration. -/
theorem intervals_sorted_nonoverlapping_witness :
    (0 : ℚ) < 1 ∧ 2 * (defaultConfig.margin_ms / 1000) ≤ 1 ∧
      List.Chain' (fun p q => p.1 ≤ q.1 ∧ p.2 ≤ q.1)
        (mask_to_intervals defaultConfig [true, false, false, true] 1 100) :=
  ⟨by decide, by norm_num [defaultConfig],
    intervals_sorted_nonoverlapping defaultConfig [true, false, false, true] 1 100
      (by decide) (by norm_num [defaultConfig])⟩

/-- C2: the Morphological Cleaner is idempotent: re-applying
`apply_morphology` to its own output with the same parameters returns that
output unchanged, for every mask and every `hop_duration > 0`. -/
theorem morphology_idempotent (c : Config) (hd : ℚ) (m : List Bool)
    (hhd : 0 < hd) :
    apply_morphology c (apply_morphology c m hd) hd = apply_morphology c m hd := by
  unfold apply_morphology
  exact morph_core_idem _ _ m

/-- C2, witness at the default configuration. -/
theorem morphology_idempotent_witness :
    (0 : ℚ) < 1 ∧
      apply_morphology defaultConfig (apply_morphology defaultConfig [true] 1) 1 =
        apply_morphology defaultConfig [true] 1 :=
  ⟨by decide, morphology_idempotent defaultConfig 1 [true] (by decide)⟩

/-- C3: the hysteresis loop of `detect_activity` equals the spec's two-state
machine with `enter_silence_db = threshold_db - hysteresis_db` and
`exit_silence_db = threshold_db + hysteresis_db`: starting in Silence, the
machine moves to Active exactly when a frame's dB exceeds the exit threshold,
moves back to Silence exactly when it drops below the enter threshold, and
each frame's mask value is `true` iff the state after that frame is Active. -/
theorem hysteresis_gate_machine (c : Config) (db : List ℚ) :
    detect_mask c db =
      machineMask (c.threshold_db - c.hysteresis_db)
        (c.threshold_db + c.hysteresis_db) GateState.Silence db := by
  have h := hystGo_machine c db true
  simpa [detect_mask, Config.enter_silence_db, Config.exit_silence_db] using h

/-- C4: `apply_morphology` performs exactly two single left-to-right passes,
in order: first flip every maximal `true` run shorter than
`min_noise_frames = ceil(min_noise_ms / 1000 / hop_duration)`, then, on the
result, flip every maximal `false` run shorter than
`min_silence_frames = ceil(min_silence_ms / 1000 / hop_duration)`; runs at
least as long as the respective minimum are untouched. -/
theorem morphology_two_pass_spec (c : Config) (hd : ℚ) (m : List Bool)
    (hhd : 0 < hd) :
    apply_morphology c m hd =
      squashSpec ⌈c.min_silence_ms / 1000 / hd⌉ false
        (squashSpec ⌈c.min_noise_ms / 1000 / hd⌉ true m) := by
  rw [morph_eq_spec, min_noise_frames, min_silence_frames]

/-- C4, witness at the default configuration. -/
theorem morphology_two_pass_spec_witness :
    (0 : ℚ) < 1 ∧
      apply_morphology defaultConfig [true] 1 =
        squashSpec ⌈defaultConfig.min_silence_ms / 1000 / 1⌉ false
          (squashSpec ⌈defaultConfig.min_noise_ms / 1000 / 1⌉ true [true]) :=
  ⟨by decide, morphology_two_pass_spec defaultConfig 1 [true] (by decide)⟩

/-- C5: every interval returned by `mask_to_intervals` satisfies
`0 ≤ start`, `end ≤ total_duration` and `start < end`. -/
theorem intervals_within_bounds (c : Config) (mask : List Bool) (hd total : ℚ)
    (p : ℚ × ℚ) (hhd : 0 < hd) (htot : 0 ≤ total) (hmargin : 0 ≤ c.margin_ms)
    (hp : p ∈ mask_to_intervals c mask hd total) :
    0 ≤ p.1 ∧ p.2 ≤ total ∧ p.1 < p.2 := by
  rw [mask_to_intervals] at hp
  exact mti_mem_bounds _ hd total mask 0 p hp

/-- C5, witness: the single interval produced from `[true]` at the default
configuration. -/
theorem intervals_within_bounds_witness :
    (0 : ℚ) < 1 ∧ (0 : ℚ) ≤ 100 ∧ (0 : ℚ) ≤ defaultConfig.margin_ms ∧
      ((0 : ℚ), (51 / 50 : ℚ)) ∈ mask_to_intervals defaultConfig [true] 1 100 ∧
      (0 ≤ ((0 : ℚ), (51 / 50 : ℚ)).1 ∧ ((0 : ℚ), (51 / 50 : ℚ)).2 ≤ 100 ∧
        ((0 : ℚ), (51 / 50 : ℚ)).1 < ((0 : ℚ), (51 / 50 : ℚ)).2) := by
  have hmti : mask_to_intervals defaultConfig [true] 1 100 = [(0, 51 / 50)] := by
    rw [mask_to_intervals]
    norm_num [maskIntervalsGo, intervalStart, intervalStop, defaultConfig]
  have hmem : ((0 : ℚ), (51 / 50 : ℚ)) ∈ mask_to_intervals defaultConfig [true] 1 100 := by
    rw [hmti]
    simp
  exact ⟨by decide, by decide, by norm_num [defaultConfig], hmem,
    intervals_within_bounds defaultConfig [true] 1 100 (0, 51 / 50)
      (by decide) (by decide) (by norm_num [defaultConfig]) hmem⟩

/-- C6, counterexample: the invalid configuration with negative minimum
durations computes non-positive minimum run lengths, yet `apply_morphology`
neither raises a configuration error nor alters its behaviour: the mask is
processed normally (the passes are silent no-ops), so the detector does not
fail fast on invalid configuration. -/
theorem no_fail_fast_counterexample :
    min_noise_frames cfgInvalid 1 = 0 ∧ min_silence_frames cfgInvalid 1 = 0 ∧
      apply_morphology cfgInvalid [true, false] 1 = [true, false] := by
  have ha : min_noise_frames cfgInvalid 1 = 0 := by
    norm_num [min_noise_frames, cfgInvalid, defaultConfig, Int.ceil_eq_iff]
  have hb : min_silence_frames cfgInvalid 1 = 0 := by
    norm_num [min_silence_frames, cfgInvalid, defaultConfig, Int.ceil_eq_iff]
  refine ⟨ha, hb, ?_⟩
  rw [morph_eq_spec, ha, hb]
  decide

/-- C6, amended: the detector performs no configuration validation: a
configuration whose computed minimum run lengths are zero or negative is
accepted silently and the morphology passes return every mask unchanged
instead of failing. -/
theorem invalid_config_silently_accepted (c : Config) (hd : ℚ) (m : List Bool)
    (hnoise : min_noise_frames c hd ≤ 0) (hsil : min_silence_frames c hd ≤ 0) :
    apply_morphology c m hd = m := by
  rw [apply_morphology, squash_nonpos_eq_self _ true m hnoise,
    squash_nonpos_eq_self _ false m hsil]

/-- C6, witness for the amended theorem. -/
theorem invalid_config_silently_accepted_witness :
    min_noise_frames cfgInvalid 1 ≤ 0 ∧ min_silence_frames cfgInvalid 1 ≤ 0 ∧
      apply_morphology cfgInvalid [false, true, false] 1 = [false, true, false] := by
  have ha : min_noise_frames cfgInvalid 1 ≤ 0 := by
    norm_num [min_noise_frames, cfgInvalid, defaultConfig, Int.ceil_le]
  have hb : min_silence_frames cfgInvalid 1 ≤ 0 := by
    norm_num [min_silence_frames, cfgInvalid, defaultConfig, Int.ceil_le]
  exact ⟨ha, hb, invalid_config_silently_accepted cfgInvalid 1 [false, true, false] ha hb⟩

/-- C7, counterexample: with `window_ms = 2.6` and `sample_rate = 1000`,
the code's `int()` truncation gives `win = 2` while round-to-nearest gives
`3`: the window length is not computed by rounding. -/
theorem framer_rounding_counterexample :
    winSamples cfgTrunc 1000 = 2 ∧
      round (cfgTrunc.window_ms * (1000 : ℕ) / 1000) = 3 ∧
      winSamples cfgTrunc 1000 ≠ round (cfgTrunc.window_ms * (1000 : ℕ) / 1000) := by
  have h1 : winSamples cfgTrunc 1000 = 2 := by
    norm_num [winSamples, truncQ, cfgTrunc, defaultConfig]
  have h2 : round (cfgTrunc.window_ms * (1000 : ℕ) / 1000) = 3 := by
    norm_num [cfgTrunc, defaultConfig, round_eq]
  exact ⟨h1, h2, by rw [h1, h2]; decide⟩

/-- C7, amended: the Energy Framer computes its window and hop lengths with
Python `int()`, i.e. truncation toward zero — for nonnegative `window_ms` and
`hop_ms` this is `floor(window_ms * sample_rate / 1000)` and
`floor(hop_ms * sample_rate / 1000)`, not round-to-nearest. -/
theorem framer_lengths_floor (c : Config) (sr : ℕ)
    (hw : 0 ≤ c.window_ms) (hh : 0 ≤ c.hop_ms) :
    winSamples c sr = ⌊c.window_ms * sr / 1000⌋ ∧
      hopSamples c sr = ⌊c.hop_ms * sr / 1000⌋ := by
  constructor
  · rw [winSamples, truncQ, if_pos]
    positivity
  · rw [hopSamples, truncQ, if_pos]
    positivity

/-- C7, witness for the amended theorem at the default configuration and
48 kHz. -/
theorem framer_lengths_floor_witness :
    (0 : ℚ) ≤ defaultConfig.window_ms ∧ (0 : ℚ) ≤ defaultConfig.hop_ms ∧
      (winSamples defaultConfig 48000 = ⌊defaultConfig.window_ms * (48000 : ℕ) / 1000⌋ ∧
        hopSamples defaultConfig 48000 = ⌊defaultConfig.hop_ms * (48000 : ℕ) / 1000⌋) :=
  ⟨by norm_num [defaultConfig], by norm_num [defaultConfig],
    framer_lengths_floor defaultConfig 48000
      (by norm_num [defaultConfig]) (by norm_num [defaultConfig])⟩

/-- C8: round trip on the export format: writing every interval as a line of
two three-decimal fields and re-parsing the lines reproduces the pairs to
3-decimal precision (each parsed endpoint is within half a thousandth of the
original), and re-exporting the parsed pairs reproduces the very same lines. -/
theorem export_roundtrip (l : List (ℚ × ℚ)) :
    List.Forall₂ close3 (parseIntervals (exportIntervals l)) l ∧
      exportIntervals (parseIntervals (exportIntervals l)) = exportIntervals l := by
  constructor
  · induction l with
    | nil => simp [parseIntervals, exportIntervals]
    | cons p t ih =>
      rw [exportIntervals, List.map_cons, parseIntervals, List.map_cons]
      refine List.Forall₂.cons ?_ ih
      exact ⟨round3_close p.1, round3_close p.2⟩
  · show ((l.map exportLine).map parseLine).map exportLine = l.map exportLine
    rw [List.map_map, List.map_map]
    apply List.map_congr_left
    intro p _
    exact exportLine_parseLine (exportLine p)

/-- C9, counterexample: cleaning `[true]` under `cfgFlip` changes its
contents to `[false]`, yet after `apply_morphology` the caller's array (store
slot 0) still holds `[true]` and the result lives in a freshly allocated slot:
the cleaner does not mutate the given mask in place. -/
theorem morphology_not_in_place_counterexample :
    (applyMorphologyStore cfgFlip [[true]] 0 1).1[0]? = some [true] ∧
      apply_morphology cfgFlip [true] 1 = [false] ∧
      (applyMorphologyStore cfgFlip [[true]] 0 1).2 = 2 ∧
      (applyMorphologyStore cfgFlip [[true]] 0 1).1[2]? = some [false] := by
  have ha : min_noise_frames cfgFlip 1 = 2 := by
    norm_num [min_noise_frames, cfgFlip, defaultConfig]
  have hb : min_silence_frames cfgFlip 1 = 1 := by
    norm_num [min_silence_frames, cfgFlip, defaultConfig]
  have hm : apply_morphology cfgFlip [true] 1 = [false] := by
    rw [morph_eq_spec, ha, hb]
    decide
  refine ⟨?_, hm, ?_, ?_⟩ <;>
    · simp only [applyMorphologyStore, squashStore, ha, hb, squash_eq_spec]
      decide

/-- C9, amended: the Morphological Cleaner leaves the input mask unchanged
and returns a fresh mask: each pass copies its argument (`mask.copy()`), the
caller's array still holds its original contents afterwards, and the returned
reference is a new one holding the cleaned contents. -/
theorem morphology_leaves_input_fresh (c : Config) (σ : List (List Bool))
    (r : ℕ) (hd : ℚ) (hr : r < σ.length) :
    (applyMorphologyStore c σ r hd).1[r]? = σ[r]? ∧
      (applyMorphologyStore c σ r hd).2 ≠ r ∧
      (applyMorphologyStore c σ r hd).1[(applyMorphologyStore c σ r hd).2]? =
        some (apply_morphology c ((σ[r]?).getD []) hd) := by
  simp only [applyMorphologyStore, squashStore]
  refine ⟨?_, ?_, ?_⟩
  · rw [List.getElem?_append_left (by simp; omega), List.getElem?_append_left hr]
  · simp only [List.length_append, List.length_singleton]
    omega
  · rw [List.getElem?_concat_length]
    congr 1
    rw [apply_morphology]
    congr 2
    rw [List.getElem?_concat_length, Option.getD_some]

/-- C9, witness for the amended theorem. -/
theorem morphology_leaves_input_fresh_witness :
    0 < ([[true]] : List (List Bool)).length ∧
      ((applyMorphologyStore cfgFlip [[true]] 0 1).1[0]? = ([[true]] : List (List Bool))[0]? ∧
        (applyMorphologyStore cfgFlip [[true]] 0 1).2 ≠ 0 ∧
        (applyMorphologyStore cfgFlip [[true]] 0 1).1[(applyMorphologyStore cfgFlip [[true]] 0 1).2]? =
          some (apply_morphology cfgFlip ((([[true]] : List (List Bool))[0]?).getD []) 1)) :=
  ⟨by decide, morphology_leaves_input_fresh cfgFlip [[true]] 0 1 (by decide)⟩

/-- C10: every maximal `false` run of a cleaned mask is at least
`min_silence_frames` frames long: the second pass flips all shorter `false`
runs to `true` and creates no new `false` runs. -/
theorem cleaned_silence_gap_lb (c : Config) (hd : ℚ) (m : List Bool)
    (p : Bool × ℕ) (hhd : 0 < hd)
    (hp : p ∈ chunks (apply_morphology c m hd)) (hpf : p.1 = false) :
    min_silence_frames c hd ≤ (p.2 : ℤ) := by
  rw [apply_morphology] at hp
  exact squash_runs_ge _ false _ p hp hpf

/-- C10, witness: the silent mask `[false, false, false]` survives cleaning
under `cfgGap` as one `false` run of length `3 ≥ min_silence_frames = 2`. -/
theorem cleaned_silence_gap_lb_witness :
    (0 : ℚ) < 1 ∧
      ((false, 3) : Bool × ℕ) ∈ chunks (apply_morphology cfgGap [false, false, false] 1) ∧
      min_silence_frames cfgGap 1 ≤ ((3 : ℕ) : ℤ) := by
  have ha : min_noise_frames cfgGap 1 = 1 := by
    norm_num [min_noise_frames, cfgGap, defaultConfig]
  have hb : min_silence_frames cfgGap 1 = 2 := by
    norm_num [min_silence_frames, cfgGap, defaultConfig]
  have heval : apply_morphology cfgGap [false, false, false] 1 = [false, false, false] := by
    rw [morph_eq_spec, ha, hb]
    decide
  have hmem : ((false, 3) : Bool × ℕ) ∈ chunks (apply_morphology cfgGap [false, false, false] 1) := by
    rw [heval]
    decide
  exact ⟨by decide, hmem,
    cleaned_silence_gap_lb cfgGap 1 [false, false, false] (false, 3) (by decide) hmem rfl⟩

end Silencut
